import Mathlib

/-!
Verification of the Restamp filter of ros2bag_tools
(`ros2bag_tools/filter/restamp.py`), shallowly embedded in Lean.

Times are modelled as unbounded signed integers of nanoseconds, matching
the "single linear signed 64-bit nanosecond axis" of the design; no claim
depends on overflow behaviour.  Payload encode/decode (`serialize_message`
and `TopicDeserializer`) are external collaborators and are modelled as
the identity on decoded payloads, so records carry decoded payloads
directly.
-/

namespace Restamp

/-- The payload shapes distinguished by the Python code's runtime type
tests: a message owning a `header` attribute (one embedded stamp), a
`TFMessage` (a list of transforms, each with a stamp), a `MarkerArray`
(a list of markers, each with a stamp), and anything else. -/
inductive Payload where
  | single (headerTime : Int)
  | tfMessage (times : List Int)
  | markerArray (times : List Int)
  | unstamped
deriving DecidableEq, Repr

/-- Minimum of a list of integers, `none` on the empty list; the value of
Python's `min(times)` guarded by `len(times) > 0`. -/
def listMin : List Int → Option Int
  | [] => none
  | x :: xs =>
    match listMin xs with
    | none => some x
    | some m => some (min x m)

/-- Embedding of `t_from_header(msg)`: the single header stamp, or the
minimum over all element stamps, or `None` when the payload carries no
stamp (including an empty `TFMessage` or `MarkerArray`). -/
def t_from_header : Payload → Option Int
  | .single h => some h
  | .tfMessage ts => listMin ts
  | .markerArray ts => listMin ts
  | .unstamped => none

/-- Embedding of `set_header_stamp(msg, t)`: overwrite every structurally
present stamp with `t`.  For an empty `MarkerArray` the Python guard
`msg.markers` fails and the message is returned unchanged; mapping over
the empty list is the same. -/
def set_header_stamp : Payload → Int → Payload
  | .single _, t => .single t
  | .tfMessage ts, t => .tfMessage (ts.map fun _ => t)
  | .markerArray ts, t => .markerArray (ts.map fun _ => t)
  | .unstamped, _ => .unstamped

/-- Embedding of `RestampFilter._add_header_offset(msg)`: add the
configured offset to every structurally present stamp. -/
def add_header_offset : Payload → Int → Payload
  | .single h, off => .single (h + off)
  | .tfMessage ts, off => .tfMessage (ts.map (· + off))
  | .markerArray ts, off => .markerArray (ts.map (· + off))
  | .unstamped, _ => .unstamped

/-- The embedded stamps structurally present in a payload, in order. -/
def embeddedTimes : Payload → List Int
  | .single h => [h]
  | .tfMessage ts => ts
  | .markerArray ts => ts
  | .unstamped => []

/-- `isinstance(msg, TFMessage)`: the only payload kind the code ever
appends to the deferred buffer. -/
def deferralEligible : Payload → Bool
  | .tfMessage _ => true
  | _ => false

/-- Modelled from the spec: `ros2bag_tools.logging.warn_once` is not under
`src/`; the Logger collaborator contract says `warnOnce` "must suppress
repeat warnings for the same topic within one run".  We model it as
suppressing repeats of the same message string within a run: it returns
the list of messages actually emitted (empty or a singleton) together
with the updated already-warned set. -/
def warn_once (warned : List String) (msg : String) : List String × List String :=
  if msg ∈ warned then ([], warned) else ([msg], msg :: warned)

/-- An emission candidate `(topic, serialized payload, timestamp)`; the
codec being identity, the payload is kept decoded. -/
structure Record where
  topic : String
  payload : Payload
  timestamp : Int
deriving DecidableEq, Repr

/-- An entry of `RestampFilter._delayed_msgs`: the Python tuple
`(topic, msg, data, t)` with `data` a serialization of `msg` (identity
codec) and `t` the invalid embedded time at append. -/
structure DeferredEntry where
  topic : String
  payload : Payload
  origT : Int
deriving DecidableEq, Repr

/-- The mutable and configured state of one `RestampFilter` instance. -/
structure EngineState where
  invert : Bool
  offsetTopics : List String
  offset : Int
  offsetHeader : Bool
  minValidTime : Option Int
  delayed : List DeferredEntry
  warned : List String
deriving DecidableEq, Repr

/-- Result of one `filter_msg` call: emissions (empty for
`FilterResult.DROP_MESSAGE`), warning messages emitted by this call, and
the updated engine state. -/
structure StepResult where
  emissions : List Record
  warnings : List String
  state : EngineState
deriving DecidableEq, Repr

/-- One iteration of the loop body of
`RestampFilter._process_delayed_messages`: warn, compute the entry's new
timestamp from `minValidTime` and the offset policy, optionally rewrite
its stamps, and append the emission. -/
def flush_step (offsetTopics : List String) (offset : Int) (offsetHeader : Bool)
    (mvt : Int) (acc : List Record × List String × List String) (e : DeferredEntry) :
    List Record × List String × List String :=
  let w := warn_once acc.2.2
    ("Assigning minimum valid timestamp " ++ toString mvt ++ " to " ++ e.topic ++ " message.")
  let newT := if e.topic ∈ offsetTopics then mvt + offset else mvt
  let msg := if offsetHeader = true ∧ e.topic ∈ offsetTopics then
    add_header_offset e.payload offset else e.payload
  (acc.1 ++ [⟨e.topic, msg, newT⟩], acc.2.1 ++ w.1, w.2)

/-- Embedding of `RestampFilter._process_delayed_messages`: if
`_min_valid_time` is `None` return `[]` leaving the buffer untouched,
else re-emit every deferred entry in order with timestamp
`_min_valid_time` (plus offset where the policy applies) and clear the
buffer. -/
def process_delayed_messages (s : EngineState) :
    List Record × List String × EngineState :=
  match s.minValidTime with
  | none => ([], [], s)
  | some mvt =>
    let r := s.delayed.foldl
      (flush_step s.offsetTopics s.offset s.offsetHeader mvt) ([], [], s.warned)
    (r.1, r.2.1, { s with delayed := [], warned := r.2.2 })

/-- Lines 145–157 of `filter_msg` (the code after the mode-specific time
handling): apply the offset policy to the timestamp and optionally the
payload, then return the record alone or followed by the flushed
deferred buffer. -/
def filter_tail (s : EngineState) (topic : String) (msg : Payload) (t : Int)
    (ws : List String) : StepResult :=
  let t2 := if topic ∈ s.offsetTopics then t + s.offset else t
  let msg2 := if s.offsetHeader = true ∧ topic ∈ s.offsetTopics then
    add_header_offset msg s.offset else msg
  if s.delayed.isEmpty then
    ⟨[⟨topic, msg2, t2⟩], ws, s⟩
  else
    let d := process_delayed_messages s
    ⟨⟨topic, msg2, t2⟩ :: d.1, ws ++ d.2.1, d.2.2⟩

/-- Embedding of `RestampFilter.filter_msg(serialized_msg)` on the
decoded payload.  Invert mode writes the recorder timestamp into the
payload; forward mode extracts the minimum embedded time, falls back to
the recorder timestamp with a warning when there is none, adopts it and
updates `_min_valid_time` when positive, and otherwise defers
(`TFMessage`) or drops the record. -/
def filter_msg (s : EngineState) (topic : String) (payload : Payload) (t : Int) :
    StepResult :=
  if s.invert then
    filter_tail s topic (set_header_stamp payload t) t []
  else
    match t_from_header payload with
    | none =>
      let w := warn_once s.warned (topic ++ " has no header, using bag timestamp instead")
      filter_tail { s with warned := w.2 } topic payload t w.1
    | some newT =>
      if 0 < newT then
        let newMin :=
          match s.minValidTime with
          | none => newT
          | some m => if newT < m then newT else m
        filter_tail { s with minValidTime := some newMin } topic payload newT []
      else
        match payload with
        | .tfMessage ts =>
          let w := warn_once s.warned
            ("Delaying message from " ++ topic ++ " with timestamp " ++ toString newT ++ ".")
          ⟨[], w.1,
            { s with warned := w.2,
                     delayed := s.delayed ++ [⟨topic, .tfMessage ts, newT⟩] }⟩
        | _ => ⟨[], [], s⟩

/-- An input record as handed to `filter_msg`: topic, decoded payload,
recorder timestamp. -/
structure InputRec where
  topic : String
  payload : Payload
  timestamp : Int
deriving DecidableEq, Repr

/-- State after feeding a sequence of records through `filter_msg`. -/
def runEngine (s : EngineState) (recs : List InputRec) : EngineState :=
  recs.foldl (fun st r => (filter_msg st r.topic r.payload r.timestamp).state) s

/-- The strictly positive embedded times of a record sequence, in order:
the values that feed the `_min_valid_time` running minimum. -/
def posEmbedded (recs : List InputRec) : List Int :=
  recs.filterMap fun r =>
    match t_from_header r.payload with
    | some T => if 0 < T then some T else none
    | none => none

/-- Pointwise minimum of two optional times, absent values ignored. -/
def optMin : Option Int → Option Int → Option Int
  | none, b => b
  | some a, none => some a
  | some a, some b => some (min a b)

/-- The emission a flushed deferred entry turns into: its stored payload
(stamps offset-rewritten when the policy applies to its topic) emitted at
`minValidTime`, plus the offset when its topic is an offset topic. -/
def flushedRecord (offsetTopics : List String) (offset : Int) (offsetHeader : Bool)
    (mvt : Int) (e : DeferredEntry) : Record :=
  ⟨e.topic,
   if offsetHeader = true ∧ e.topic ∈ offsetTopics then
     add_header_offset e.payload offset else e.payload,
   if e.topic ∈ offsetTopics then mvt + offset else mvt⟩

lemma process_delayed_mvt_none (s : EngineState) (h : s.minValidTime = none) :
    process_delayed_messages s = ([], [], s) := by
  unfold process_delayed_messages
  rw [h]

lemma foldl_flush_fst (ot : List String) (off : Int) (oh : Bool) (mvt : Int)
    (l : List DeferredEntry) (acc : List Record × List String × List String) :
    (l.foldl (flush_step ot off oh mvt) acc).1 =
      acc.1 ++ l.map (flushedRecord ot off oh mvt) := by
  induction l generalizing acc with
  | nil => simp
  | cons e tl ih =>
    rw [List.foldl_cons, ih, List.map_cons]
    simp only [flush_step, flushedRecord]
    rw [List.append_assoc]
    rfl

lemma process_delayed_mvt_some (s : EngineState) (mvt : Int)
    (h : s.minValidTime = some mvt) :
    (process_delayed_messages s).1 =
      s.delayed.map (flushedRecord s.offsetTopics s.offset s.offsetHeader mvt) ∧
    (process_delayed_messages s).2.2.delayed = [] := by
  unfold process_delayed_messages
  rw [h]
  exact ⟨by rw [foldl_flush_fst]; rfl, rfl⟩

lemma process_delayed_fields (s : EngineState) :
    (process_delayed_messages s).2.2.minValidTime = s.minValidTime ∧
    (process_delayed_messages s).2.2.invert = s.invert ∧
    (process_delayed_messages s).2.2.offsetTopics = s.offsetTopics ∧
    (process_delayed_messages s).2.2.offset = s.offset ∧
    (process_delayed_messages s).2.2.offsetHeader = s.offsetHeader := by
  cases h : s.minValidTime with
  | none =>
    rw [process_delayed_mvt_none s h]
    exact ⟨h, rfl, rfl, rfl, rfl⟩
  | some mvt =>
    unfold process_delayed_messages
    rw [h]
    exact ⟨rfl, rfl, rfl, rfl, rfl⟩

lemma filter_tail_head (s : EngineState) (topic : String) (msg : Payload)
    (t : Int) (ws : List String) :
    (filter_tail s topic msg t ws).emissions.head? =
      some ⟨topic,
        if s.offsetHeader = true ∧ topic ∈ s.offsetTopics then
          add_header_offset msg s.offset else msg,
        if topic ∈ s.offsetTopics then t + s.offset else t⟩ := by
  unfold filter_tail
  cases hd : s.delayed.isEmpty <;> simp [hd]

lemma filter_tail_fields (s : EngineState) (topic : String) (msg : Payload)
    (t : Int) (ws : List String) :
    (filter_tail s topic msg t ws).state.minValidTime = s.minValidTime ∧
    (filter_tail s topic msg t ws).state.invert = s.invert ∧
    (filter_tail s topic msg t ws).state.offsetTopics = s.offsetTopics ∧
    (filter_tail s topic msg t ws).state.offset = s.offset ∧
    (filter_tail s topic msg t ws).state.offsetHeader = s.offsetHeader := by
  unfold filter_tail
  cases hd : s.delayed.isEmpty with
  | true => simp [hd]
  | false =>
    simp only [hd, Bool.false_eq_true, if_false]
    exact process_delayed_fields s

lemma filter_msg_invert_eq (s : EngineState) (topic : String) (p : Payload) (t : Int)
    (hinv : s.invert = true) :
    filter_msg s topic p t = filter_tail s topic (set_header_stamp p t) t [] := by
  unfold filter_msg
  rw [hinv]
  rfl

lemma filter_msg_forward_pos (s : EngineState) (topic : String) (p : Payload)
    (t T : Int) (hinv : s.invert = false) (hT : t_from_header p = some T)
    (hpos : 0 < T) :
    filter_msg s topic p t =
      filter_tail { s with minValidTime := some (min (s.minValidTime.getD T) T) }
        topic p T [] := by
  unfold filter_msg
  rw [hinv, hT]
  simp only [Bool.false_eq_true, if_false, if_pos hpos]
  congr 2
  cases h : s.minValidTime with
  | none => simp
  | some m =>
    simp only [Option.getD_some]
    rcases lt_or_le T m with hlt | hle
    · rw [if_pos hlt, min_eq_right hlt.le]
    · rw [if_neg (not_lt.mpr hle), min_eq_left hle]

lemma filter_msg_forward_none (s : EngineState) (topic : String) (p : Payload)
    (t : Int) (hinv : s.invert = false) (hT : t_from_header p = none) :
    filter_msg s topic p t =
      filter_tail
        { s with warned :=
            (warn_once s.warned (topic ++ " has no header, using bag timestamp instead")).2 }
        topic p t
        (warn_once s.warned (topic ++ " has no header, using bag timestamp instead")).1 := by
  unfold filter_msg
  rw [hinv, hT]
  rfl

lemma filter_msg_forward_nonpos_tf (s : EngineState) (topic : String)
    (ts : List Int) (t T : Int) (hinv : s.invert = false)
    (hT : t_from_header (.tfMessage ts) = some T) (hnp : ¬ 0 < T) :
    filter_msg s topic (.tfMessage ts) t =
      ⟨[],
       (warn_once s.warned
         ("Delaying message from " ++ topic ++ " with timestamp " ++ toString T ++ ".")).1,
       { s with
           warned := (warn_once s.warned
             ("Delaying message from " ++ topic ++ " with timestamp " ++ toString T ++ ".")).2,
           delayed := s.delayed ++ [⟨topic, .tfMessage ts, T⟩] }⟩ := by
  unfold filter_msg
  rw [hinv, hT]
  simp only [Bool.false_eq_true, if_false, if_neg hnp]

lemma filter_msg_forward_nonpos_drop (s : EngineState) (topic : String)
    (p : Payload) (t T : Int) (hinv : s.invert = false)
    (hT : t_from_header p = some T) (hnp : ¬ 0 < T)
    (hne : deferralEligible p = false) :
    filter_msg s topic p t = ⟨[], [], s⟩ := by
  unfold filter_msg
  rw [hinv, hT]
  simp only [Bool.false_eq_true, if_false, if_neg hnp]
  cases p with
  | tfMessage ts => simp [deferralEligible] at hne
  | single h => rfl
  | markerArray ts => rfl
  | unstamped => rfl

lemma process_delayed_delayed (s : EngineState) :
    (process_delayed_messages s).2.2.delayed = s.delayed ∨
    (process_delayed_messages s).2.2.delayed = [] := by
  cases h : s.minValidTime with
  | none => rw [process_delayed_mvt_none s h]; left; rfl
  | some mvt => right; exact (process_delayed_mvt_some s mvt h).2

lemma filter_tail_delayed (s : EngineState) (topic : String) (msg : Payload)
    (t : Int) (ws : List String) :
    (filter_tail s topic msg t ws).state.delayed = s.delayed ∨
    (filter_tail s topic msg t ws).state.delayed = [] := by
  unfold filter_tail
  cases hd : s.delayed.isEmpty with
  | true => left; simp
  | false =>
    simp only [hd, Bool.false_eq_true, if_false]
    exact process_delayed_delayed s

lemma filter_msg_delayed_cases (s : EngineState) (topic : String) (p : Payload)
    (t : Int) :
    (filter_msg s topic p t).state.delayed = [] ∨
    (filter_msg s topic p t).state.delayed = s.delayed ∨
    ∃ ts T, (filter_msg s topic p t).state.delayed =
      s.delayed ++ [⟨topic, Payload.tfMessage ts, T⟩] := by
  cases hinv : s.invert with
  | true =>
    rw [filter_msg_invert_eq s topic p t hinv]
    rcases filter_tail_delayed s topic (set_header_stamp p t) t [] with h | h
    · right; left; exact h
    · left; exact h
  | false =>
    cases hT : t_from_header p with
    | none =>
      rw [filter_msg_forward_none s topic p t hinv hT]
      rcases filter_tail_delayed _ _ _ _ _ with h | h
      · right; left; exact h
      · left; exact h
    | some T =>
      by_cases hpos : 0 < T
      · rw [filter_msg_forward_pos s topic p t T hinv hT hpos]
        rcases filter_tail_delayed _ _ _ _ _ with h | h
        · right; left; exact h
        · left; exact h
      · cases hel : deferralEligible p with
        | false =>
          rw [filter_msg_forward_nonpos_drop s topic p t T hinv hT hpos hel]
          right; left; rfl
        | true =>
          cases p with
          | tfMessage ts =>
            rw [filter_msg_forward_nonpos_tf s topic ts t T hinv hT hpos]
            right; right; exact ⟨ts, T, rfl⟩
          | single h => simp [deferralEligible] at hel
          | markerArray ts => simp [deferralEligible] at hel
          | unstamped => simp [deferralEligible] at hel

lemma filter_tail_empty (s : EngineState) (topic : String) (msg : Payload)
    (t : Int) (ws : List String) (hd : s.delayed = []) :
    filter_tail s topic msg t ws =
      ⟨[⟨topic,
         if s.offsetHeader = true ∧ topic ∈ s.offsetTopics then
           add_header_offset msg s.offset else msg,
         if topic ∈ s.offsetTopics then t + s.offset else t⟩], ws, s⟩ := by
  unfold filter_tail
  simp [hd]

lemma filter_tail_flush (s : EngineState) (mvt : Int) (topic : String)
    (msg : Payload) (t : Int) (ws : List String)
    (hne : s.delayed ≠ []) (hm : s.minValidTime = some mvt) :
    (filter_tail s topic msg t ws).emissions =
      ⟨topic,
       if s.offsetHeader = true ∧ topic ∈ s.offsetTopics then
         add_header_offset msg s.offset else msg,
       if topic ∈ s.offsetTopics then t + s.offset else t⟩ ::
        s.delayed.map (flushedRecord s.offsetTopics s.offset s.offsetHeader mvt) ∧
    (filter_tail s topic msg t ws).state.delayed = [] := by
  unfold filter_tail
  have hd : s.delayed.isEmpty = false := by
    simpa [List.isEmpty_iff] using hne
  simp only [hd, Bool.false_eq_true, if_false]
  exact ⟨by rw [(process_delayed_mvt_some s mvt hm).1],
         (process_delayed_mvt_some s mvt hm).2⟩

lemma filter_tail_noflush (s : EngineState) (topic : String) (msg : Payload)
    (t : Int) (ws : List String) (hm : s.minValidTime = none) :
    (filter_tail s topic msg t ws).state.delayed = s.delayed ∧
    (filter_tail s topic msg t ws).emissions.length = 1 := by
  unfold filter_tail
  cases hd : s.delayed.isEmpty with
  | true => simp
  | false =>
    simp only [hd, Bool.false_eq_true, if_false]
    rw [process_delayed_mvt_none s hm]
    exact ⟨rfl, rfl⟩

lemma filter_tail_full_flush_len (s : EngineState) (mvt : Int) (topic : String)
    (msg : Payload) (t : Int) (ws : List String) (hm : s.minValidTime = some mvt) :
    (filter_tail s topic msg t ws).state.delayed = [] ∧
    (filter_tail s topic msg t ws).emissions.length = 1 + s.delayed.length := by
  by_cases hne : s.delayed = []
  · rw [filter_tail_empty s topic msg t ws hne]
    exact ⟨hne, by simp [hne]⟩
  · have h := filter_tail_flush s mvt topic msg t ws hne hm
    refine ⟨h.2, ?_⟩
    rw [h.1]
    simp [Nat.add_comm]

/-- C1: In forward mode, a record whose payload has minimum embedded time
`T > 0` on topic `X` is emitted (as the first emission of the call) with
timestamp `T + offset` when `X` is an offset topic and `T` otherwise, and
`minValidTime` becomes the minimum of its previous value (or `T` when it
was absent) and `T`. -/
theorem claim_C1_forward_positive_emission (s : EngineState) (topic : String)
    (p : Payload) (t T : Int) (hinv : s.invert = false)
    (hT : t_from_header p = some T) (hpos : 0 < T) :
    (∃ e : Record, (filter_msg s topic p t).emissions.head? = some e ∧
      e.topic = topic ∧
      e.timestamp = (if topic ∈ s.offsetTopics then T + s.offset else T)) ∧
    (filter_msg s topic p t).state.minValidTime =
      some (min (s.minValidTime.getD T) T) := by
  rw [filter_msg_forward_pos s topic p t T hinv hT hpos]
  constructor
  · exact ⟨_, filter_tail_head _ _ _ _ _, rfl, rfl⟩
  · exact (filter_tail_fields _ _ _ _ _).1

/-- Witness for C1: topic `/scan` in the offset topics with offset 50,
embedded time 200, previous `minValidTime` 300: emitted timestamp 250,
`minValidTime` becomes 200. -/
theorem claim_C1_forward_positive_emission_witness :
    (∃ e : Record,
      (filter_msg ⟨false, ["/scan"], 50, false, some 300, [], []⟩
        "/scan" (.single 200) 7).emissions.head? = some e ∧
      e.topic = "/scan" ∧
      e.timestamp =
        (if "/scan" ∈ (⟨false, ["/scan"], 50, false, some 300, [], []⟩ :
            EngineState).offsetTopics then (200 : Int) + 50 else 200)) ∧
    (filter_msg ⟨false, ["/scan"], 50, false, some 300, [], []⟩
      "/scan" (.single 200) 7).state.minValidTime =
      some (min ((some (300 : Int)).getD 200) 200) :=
  claim_C1_forward_positive_emission _ _ _ 7 200 rfl rfl (by decide)

/-- C2: A flush re-emits every deferred entry exactly once, in insertion
(FIFO) order, each with timestamp `minValidTime` plus the offset when the
entry's own topic is an offset topic, and empties the buffer; when a
forward-mode record with positive embedded time triggers the flush, the
flushed entries are appended after that record's own emission (the
`minValidTime` used is the one updated by the trigger). -/
theorem claim_C2_flush_fifo_after_trigger :
    (∀ (s : EngineState) (mvt : Int), s.minValidTime = some mvt →
      (process_delayed_messages s).1 =
        s.delayed.map (flushedRecord s.offsetTopics s.offset s.offsetHeader mvt) ∧
      (process_delayed_messages s).2.2.delayed = []) ∧
    (∀ (s : EngineState) (topic : String) (p : Payload) (t T : Int),
      s.invert = false → t_from_header p = some T → 0 < T → s.delayed ≠ [] →
      (∃ e : Record, (filter_msg s topic p t).emissions =
          e :: s.delayed.map (flushedRecord s.offsetTopics s.offset s.offsetHeader
            (min (s.minValidTime.getD T) T)) ∧
        e.topic = topic) ∧
      (filter_msg s topic p t).state.delayed = []) := by
  constructor
  · exact process_delayed_mvt_some
  · intro s topic p t T hinv hT hpos hne
    rw [filter_msg_forward_pos s topic p t T hinv hT hpos]
    have h := filter_tail_flush
      { s with minValidTime := some (min (s.minValidTime.getD T) T) }
      (min (s.minValidTime.getD T) T) topic p T [] hne rfl
    exact ⟨⟨_, h.1, rfl⟩, h.2⟩

/-- Witness for C2: a buffer with two entries (`/tf` and `/scan`, the
latter an offset topic with offset 50) is flushed by a positive record on
`/odom` with embedded time 200: both entries are appended after the
trigger in insertion order with timestamps 200 and 250, and the buffer
is empty afterwards. -/
theorem claim_C2_flush_fifo_after_trigger_witness :
    ((process_delayed_messages
        ⟨false, ["/scan"], 50, false, some 200,
          [⟨"/tf", .tfMessage [-5], -5⟩, ⟨"/scan", .tfMessage [0], 0⟩], []⟩).1 =
      ([⟨"/tf", .tfMessage [-5], -5⟩, ⟨"/scan", .tfMessage [0], 0⟩] :
          List DeferredEntry).map
        (flushedRecord ["/scan"] 50 false 200) ∧
      (process_delayed_messages
        ⟨false, ["/scan"], 50, false, some 200,
          [⟨"/tf", .tfMessage [-5], -5⟩, ⟨"/scan", .tfMessage [0], 0⟩], []⟩).2.2.delayed
        = []) ∧
    ((∃ e : Record,
        (filter_msg
          ⟨false, ["/scan"], 50, false, none,
            [⟨"/tf", .tfMessage [-5], -5⟩, ⟨"/scan", .tfMessage [0], 0⟩], []⟩
          "/odom" (.single 200) 3).emissions =
          e :: ([⟨"/tf", .tfMessage [-5], -5⟩, ⟨"/scan", .tfMessage [0], 0⟩] :
              List DeferredEntry).map
            (flushedRecord ["/scan"] 50 false
              (min ((none : Option Int).getD 200) 200)) ∧
        e.topic = "/odom") ∧
      (filter_msg
        ⟨false, ["/scan"], 50, false, none,
          [⟨"/tf", .tfMessage [-5], -5⟩, ⟨"/scan", .tfMessage [0], 0⟩], []⟩
        "/odom" (.single 200) 3).state.delayed = []) :=
  ⟨claim_C2_flush_fifo_after_trigger.1 _ 200 rfl,
   claim_C2_flush_fifo_after_trigger.2 _ "/odom" (.single 200) 3 200
     rfl rfl (by decide) (by decide)⟩

/-- C3: While the deferred buffer is non-empty it is flushed in full as a
side effect of processing a later record, but only once `minValidTime` is
set: a flush attempt with `minValidTime` absent returns the empty list
and leaves the buffer (and state) untouched; a record passing through
while `minValidTime` is still absent emits only itself and leaves the
buffer as it was; deferral-eligible records keep accumulating at the end
of the buffer; and once `minValidTime` is set, any record that reaches
emission flushes the whole buffer, leaving it empty. -/
theorem claim_C3_flush_gating :
    (∀ s : EngineState, s.minValidTime = none →
      process_delayed_messages s = ([], [], s)) ∧
    (∀ (s : EngineState) (topic : String) (p : Payload) (t : Int),
      s.invert = false → t_from_header p = none → s.minValidTime = none →
      (filter_msg s topic p t).state.delayed = s.delayed ∧
      (filter_msg s topic p t).emissions.length = 1) ∧
    (∀ (s : EngineState) (topic : String) (ts : List Int) (t T : Int),
      s.invert = false → t_from_header (.tfMessage ts) = some T → T ≤ 0 →
      (filter_msg s topic (.tfMessage ts) t).state.delayed =
        s.delayed ++ [⟨topic, .tfMessage ts, T⟩] ∧
      (filter_msg s topic (.tfMessage ts) t).emissions = []) ∧
    (∀ (s : EngineState) (topic : String) (p : Payload) (t mvt : Int),
      s.invert = false → s.minValidTime = some mvt →
      (t_from_header p = none ∨ ∃ T, t_from_header p = some T ∧ 0 < T) →
      (filter_msg s topic p t).state.delayed = [] ∧
      (filter_msg s topic p t).emissions.length = 1 + s.delayed.length) := by
  refine ⟨process_delayed_mvt_none, ?_, ?_, ?_⟩
  · intro s topic p t hinv hT hm
    rw [filter_msg_forward_none s topic p t hinv hT]
    exact filter_tail_noflush _ _ _ _ _ hm
  · intro s topic ts t T hinv hT hnp
    rw [filter_msg_forward_nonpos_tf s topic ts t T hinv hT (not_lt.mpr hnp)]
    exact ⟨rfl, rfl⟩
  · intro s topic p t mvt hinv hm hok
    rcases hok with hT | ⟨T, hT, hpos⟩
    · rw [filter_msg_forward_none s topic p t hinv hT]
      exact filter_tail_full_flush_len _ mvt _ _ _ _ hm
    · rw [filter_msg_forward_pos s topic p t T hinv hT hpos]
      exact filter_tail_full_flush_len _ (min ((some mvt).getD T) T) _ _ _ _ (by rw [hm])

/-- Witness for C3: with `minValidTime` absent a flush attempt is a no-op
and an unstamped record leaves the one-entry buffer alone; a second
deferral-eligible record accumulates; once `minValidTime` is 200, an
unstamped record flushes the single buffered entry. -/
theorem claim_C3_flush_gating_witness :
    process_delayed_messages
      ⟨false, [], 0, false, none, [⟨"/tf", .tfMessage [-5], -5⟩], []⟩ =
      ([], [], ⟨false, [], 0, false, none, [⟨"/tf", .tfMessage [-5], -5⟩], []⟩) ∧
    ((filter_msg ⟨false, [], 0, false, none, [⟨"/tf", .tfMessage [-5], -5⟩], []⟩
        "/x" .unstamped 9).state.delayed = [⟨"/tf", .tfMessage [-5], -5⟩] ∧
      (filter_msg ⟨false, [], 0, false, none, [⟨"/tf", .tfMessage [-5], -5⟩], []⟩
        "/x" .unstamped 9).emissions.length = 1) ∧
    ((filter_msg ⟨false, [], 0, false, none, [⟨"/tf", .tfMessage [-5], -5⟩], []⟩
        "/tf" (.tfMessage [0]) 9).state.delayed =
        [⟨"/tf", .tfMessage [-5], -5⟩] ++ [⟨"/tf", .tfMessage [0], 0⟩] ∧
      (filter_msg ⟨false, [], 0, false, none, [⟨"/tf", .tfMessage [-5], -5⟩], []⟩
        "/tf" (.tfMessage [0]) 9).emissions = []) ∧
    ((filter_msg ⟨false, [], 0, false, some 200, [⟨"/tf", .tfMessage [-5], -5⟩], []⟩
        "/x" .unstamped 9).state.delayed = [] ∧
      (filter_msg ⟨false, [], 0, false, some 200, [⟨"/tf", .tfMessage [-5], -5⟩], []⟩
        "/x" .unstamped 9).emissions.length =
        1 + ([⟨"/tf", Payload.tfMessage [-5], -5⟩] : List DeferredEntry).length) :=
  ⟨claim_C3_flush_gating.1 _ rfl,
   claim_C3_flush_gating.2.1 _ "/x" .unstamped 9 rfl rfl rfl,
   claim_C3_flush_gating.2.2.1 _ "/tf" [0] 9 0 rfl (by decide) (by decide),
   claim_C3_flush_gating.2.2.2 _ "/x" .unstamped 9 200 rfl rfl (Or.inl rfl)⟩

/-- C5: In forward mode, a record whose payload has minimum embedded time
`≤ 0` and is not deferral-eligible (e.g. a single-header payload) is
permanently dropped: no emission, no warning, nothing added to the
deferred buffer, and the whole engine state (in particular
`minValidTime`) is unchanged. -/
theorem claim_C5_nonpositive_not_eligible_dropped (s : EngineState)
    (topic : String) (p : Payload) (t T : Int) (hinv : s.invert = false)
    (hT : t_from_header p = some T) (hnp : T ≤ 0)
    (hne : deferralEligible p = false) :
    filter_msg s topic p t = ⟨[], [], s⟩ :=
  filter_msg_forward_nonpos_drop s topic p t T hinv hT (not_lt.mpr hnp) hne

/-- Witness for C5: a single-header payload with embedded time -3 is
dropped and the state is untouched. -/
theorem claim_C5_nonpositive_not_eligible_dropped_witness :
    filter_msg ⟨false, [], 0, false, some 100, [], []⟩ "/a" (.single (-3)) 5 =
      ⟨[], [], ⟨false, [], 0, false, some 100, [], []⟩⟩ :=
  claim_C5_nonpositive_not_eligible_dropped _ _ _ 5 (-3) rfl rfl (by decide) rfl

/-- C10: Only `TFMessage` payloads are ever appended to the deferred
buffer — if every entry of the buffer is a `TFMessage`, that still holds
after any `filter_msg` call — and a `MarkerArray` whose minimum embedded
time is `≤ 0` is dropped with no emission, no buffering and no warning
(the state is entirely unchanged). -/
theorem claim_C10_deferred_only_tfmessage :
    (∀ (s : EngineState) (topic : String) (p : Payload) (t : Int),
      (∀ e ∈ s.delayed, deferralEligible e.payload = true) →
      ∀ e ∈ (filter_msg s topic p t).state.delayed,
        deferralEligible e.payload = true) ∧
    (∀ (s : EngineState) (topic : String) (ts : List Int) (t T : Int),
      s.invert = false → t_from_header (.markerArray ts) = some T → T ≤ 0 →
      filter_msg s topic (.markerArray ts) t = ⟨[], [], s⟩) := by
  constructor
  · intro s topic p t hall e he
    rcases filter_msg_delayed_cases s topic p t with h | h | ⟨ts, T, h⟩
    · rw [h] at he; exact absurd he (List.not_mem_nil e)
    · rw [h] at he; exact hall e he
    · rw [h] at he
      rcases List.mem_append.mp he with h1 | h1
      · exact hall e h1
      · rcases List.mem_singleton.mp h1 with rfl
        rfl
  · intro s topic ts t T hinv hT hnp
    exact filter_msg_forward_nonpos_drop s topic _ t T hinv hT (not_lt.mpr hnp) rfl

/-- Witness for C10: a buffer holding one `TFMessage` entry still holds
only `TFMessage` entries after a call, and a `MarkerArray` with embedded
time -7 is dropped leaving the state untouched. -/
theorem claim_C10_deferred_only_tfmessage_witness :
    (∀ e ∈ (filter_msg ⟨false, [], 0, false, none, [⟨"/tf", .tfMessage [-5], -5⟩], []⟩
        "/x" .unstamped 9).state.delayed, deferralEligible e.payload = true) ∧
    filter_msg ⟨false, [], 0, false, none, [], []⟩ "/m" (.markerArray [-7, 3]) 4 =
      ⟨[], [], ⟨false, [], 0, false, none, [], []⟩⟩ :=
  ⟨claim_C10_deferred_only_tfmessage.1 _ "/x" .unstamped 9 (by decide),
   claim_C10_deferred_only_tfmessage.2 _ "/m" [-7, 3] 4 (-7) rfl (by decide) (by decide)⟩

lemma optMin_none_right (a : Option Int) : optMin a none = a := by
  cases a <;> rfl

lemma optMin_assoc (a b c : Option Int) :
    optMin (optMin a b) c = optMin a (optMin b c) := by
  cases a <;> cases b <;> cases c <;> simp [optMin, min_assoc]

lemma listMin_cons (x : Int) (l : List Int) :
    listMin (x :: l) = optMin (some x) (listMin l) := by
  cases h : listMin l <;> simp [listMin, h, optMin]

/-- The contribution of one record to the `minValidTime` running minimum:
its minimum embedded time when strictly positive, nothing otherwise. -/
def posContribution (p : Payload) : Option Int :=
  match t_from_header p with
  | some T => if 0 < T then some T else none
  | none => none

lemma filter_msg_minValidTime_step (s : EngineState) (topic : String)
    (p : Payload) (t : Int) (hinv : s.invert = false) :
    (filter_msg s topic p t).state.minValidTime =
      optMin s.minValidTime (posContribution p) := by
  cases hT : t_from_header p with
  | none =>
    rw [filter_msg_forward_none s topic p t hinv hT]
    rw [(filter_tail_fields _ _ _ _ _).1]
    simp [posContribution, hT, optMin_none_right]
  | some T =>
    by_cases hpos : 0 < T
    · rw [filter_msg_forward_pos s topic p t T hinv hT hpos]
      rw [(filter_tail_fields _ _ _ _ _).1]
      simp only [posContribution, hT, if_pos hpos]
      cases h : s.minValidTime with
      | none => simp [optMin]
      | some m => simp [optMin]
    · cases hel : deferralEligible p with
      | false =>
        rw [filter_msg_forward_nonpos_drop s topic p t T hinv hT hpos hel]
        simp [posContribution, hT, if_neg hpos, optMin_none_right]
      | true =>
        cases p with
        | tfMessage ts =>
          rw [filter_msg_forward_nonpos_tf s topic ts t T hinv hT hpos]
          simp [posContribution, hT, if_neg hpos, optMin_none_right]
        | single h => simp [deferralEligible] at hel
        | markerArray ts => simp [deferralEligible] at hel
        | unstamped => simp [deferralEligible] at hel

lemma filter_msg_invert_preserved (s : EngineState) (topic : String)
    (p : Payload) (t : Int) :
    (filter_msg s topic p t).state.invert = s.invert := by
  cases hinv : s.invert with
  | true =>
    rw [filter_msg_invert_eq s topic p t hinv]
    rw [(filter_tail_fields _ _ _ _ _).2.1]
    exact hinv
  | false =>
    cases hT : t_from_header p with
    | none =>
      rw [filter_msg_forward_none s topic p t hinv hT]
      rw [(filter_tail_fields _ _ _ _ _).2.1]
      exact hinv
    | some T =>
      by_cases hpos : 0 < T
      · rw [filter_msg_forward_pos s topic p t T hinv hT hpos]
        rw [(filter_tail_fields _ _ _ _ _).2.1]
        exact hinv
      · cases hel : deferralEligible p with
        | false =>
          rw [filter_msg_forward_nonpos_drop s topic p t T hinv hT hpos hel]
          exact hinv
        | true =>
          cases p with
          | tfMessage ts =>
            rw [filter_msg_forward_nonpos_tf s topic ts t T hinv hT hpos]
            exact hinv
          | single h => simp [deferralEligible] at hel
          | markerArray ts => simp [deferralEligible] at hel
          | unstamped => simp [deferralEligible] at hel

lemma runEngine_minValidTime (recs : List InputRec) (s : EngineState)
    (hinv : s.invert = false) :
    (runEngine s recs).minValidTime =
      optMin s.minValidTime (listMin (posEmbedded recs)) := by
  induction recs generalizing s with
  | nil => simp [runEngine, posEmbedded, listMin, optMin_none_right]
  | cons r rs ih =>
    have hstep : runEngine s (r :: rs) =
        runEngine (filter_msg s r.topic r.payload r.timestamp).state rs := rfl
    rw [hstep, ih _ (by rw [filter_msg_invert_preserved]; exact hinv)]
    rw [filter_msg_minValidTime_step s r.topic r.payload r.timestamp hinv]
    rw [optMin_assoc]
    congr 1
    unfold posEmbedded posContribution
    rw [List.filterMap_cons]
    cases hT : t_from_header r.payload with
    | none => rfl
    | some T =>
      by_cases hpos : 0 < T
      · simp only [if_pos hpos]
        rw [listMin_cons]
      · simp only [if_neg hpos]
        rfl

/-- C4: Across any sequence of records processed in forward mode,
`minValidTime` ends as the pointwise minimum of its starting value and
the minimum of all strictly positive embedded times observed (so, from a
fresh engine, the running minimum of the positive embedded times seen so
far), and once set it never moves to a value greater than one it held. -/
theorem claim_C4_minvalidtime_running_min :
    (∀ (s : EngineState) (recs : List InputRec), s.invert = false →
      (runEngine s recs).minValidTime =
        optMin s.minValidTime (listMin (posEmbedded recs))) ∧
    (∀ (s : EngineState) (recs : List InputRec) (m : Int), s.invert = false →
      s.minValidTime = some m →
      ∃ m', (runEngine s recs).minValidTime = some m' ∧ m' ≤ m) := by
  constructor
  · intro s recs hinv
    exact runEngine_minValidTime recs s hinv
  · intro s recs m hinv hm
    rw [runEngine_minValidTime recs s hinv, hm]
    cases hL : listMin (posEmbedded recs) with
    | none => exact ⟨m, by simp [optMin], le_refl m⟩
    | some x => exact ⟨min m x, by simp [optMin], min_le_left m x⟩

/-- Witness for C4: feeding embedded times 300, -2 (dropped), 100 into a
fresh engine yields `minValidTime = optMin none (listMin [300, 100])`,
which evaluates to 100; an engine starting at 50 ends at some value
`≤ 50` over the same input. -/
theorem claim_C4_minvalidtime_running_min_witness :
    ((runEngine ⟨false, [], 0, false, none, [], []⟩
        [⟨"/a", .single 300, 1⟩, ⟨"/b", .single (-2), 2⟩, ⟨"/c", .single 100, 3⟩]).minValidTime =
      optMin none (listMin (posEmbedded
        [⟨"/a", .single 300, 1⟩, ⟨"/b", .single (-2), 2⟩, ⟨"/c", .single 100, 3⟩]))) ∧
    (∃ m', (runEngine ⟨false, [], 0, false, some 50, [], []⟩
        [⟨"/a", .single 300, 1⟩, ⟨"/b", .single (-2), 2⟩, ⟨"/c", .single 100, 3⟩]).minValidTime =
        some m' ∧ m' ≤ 50) :=
  ⟨claim_C4_minvalidtime_running_min.1 _ _ rfl,
   claim_C4_minvalidtime_running_min.2 _ _ 50 rfl rfl⟩

/-- C6: In invert mode every structurally present embedded time field is
overwritten with the recorder timestamp `t` (an empty element collection
stays unchanged), the record is emitted with timestamp `t` plus the
offset when its topic qualifies, and — the buffer being empty, as it
stays for the whole run in this mode — the state, in particular
`minValidTime` and the deferred buffer, is returned untouched. -/
theorem claim_C6_invert_mode :
    (∀ (p : Payload) (t : Int),
      embeddedTimes (set_header_stamp p t) = (embeddedTimes p).map (fun _ => t)) ∧
    (∀ t : Int, set_header_stamp (.tfMessage []) t = .tfMessage [] ∧
      set_header_stamp (.markerArray []) t = .markerArray []) ∧
    (∀ (s : EngineState) (topic : String) (p : Payload) (t : Int),
      s.invert = true → s.delayed = [] →
      filter_msg s topic p t =
        ⟨[⟨topic,
           if s.offsetHeader = true ∧ topic ∈ s.offsetTopics then
             add_header_offset (set_header_stamp p t) s.offset
           else set_header_stamp p t,
           if topic ∈ s.offsetTopics then t + s.offset else t⟩], [], s⟩) ∧
    (∀ (s : EngineState) (recs : List InputRec),
      s.invert = true → s.delayed = [] → runEngine s recs = s) := by
  refine ⟨?_, ?_, ?_, ?_⟩
  · intro p t
    cases p <;> simp [embeddedTimes, set_header_stamp]
  · intro t
    exact ⟨rfl, rfl⟩
  · intro s topic p t hinv hdel
    rw [filter_msg_invert_eq s topic p t hinv]
    exact filter_tail_empty s topic _ t [] hdel
  · intro s recs hinv hdel
    induction recs with
    | nil => rfl
    | cons r rs ih =>
      have hstep : (filter_msg s r.topic r.payload r.timestamp).state = s := by
        rw [filter_msg_invert_eq s r.topic r.payload r.timestamp hinv,
          filter_tail_empty s r.topic _ r.timestamp [] hdel]
      have : runEngine s (r :: rs) =
          runEngine (filter_msg s r.topic r.payload r.timestamp).state rs := rfl
      rw [this, hstep]
      exact ih

/-- Witness for C6: a two-transform `TFMessage` gets both stamps set to
9; empty collections are untouched; an inverted record on offset topic
`/scan` with recorder time 7 and offset 50 is emitted at 57 with its
header stamp set to 7 and the state unchanged. -/
theorem claim_C6_invert_mode_witness :
    (embeddedTimes (set_header_stamp (.tfMessage [1, 2]) 9) =
      (embeddedTimes (.tfMessage [1, 2])).map (fun _ => 9)) ∧
    (set_header_stamp (.tfMessage []) 9 = .tfMessage [] ∧
      set_header_stamp (.markerArray []) 9 = .markerArray []) ∧
    (filter_msg ⟨true, ["/scan"], 50, false, some 3, [], []⟩ "/scan" (.single 111) 7 =
      ⟨[⟨"/scan", set_header_stamp (.single 111) 7, 7 + 50⟩], [],
        ⟨true, ["/scan"], 50, false, some 3, [], []⟩⟩) ∧
    runEngine ⟨true, ["/scan"], 50, false, some 3, [], []⟩
      [⟨"/a", .single 5, 3⟩, ⟨"/tf", .tfMessage [-4], 6⟩] =
      ⟨true, ["/scan"], 50, false, some 3, [], []⟩ :=
  ⟨claim_C6_invert_mode.1 (.tfMessage [1, 2]) 9,
   claim_C6_invert_mode.2.1 9,
   by simpa using (claim_C6_invert_mode.2.2.1
     ⟨true, ["/scan"], 50, false, some 3, [], []⟩ "/scan" (.single 111) 7 rfl rfl),
   claim_C6_invert_mode.2.2.2 _
     [⟨"/a", .single 5, 3⟩, ⟨"/tf", .tfMessage [-4], 6⟩] rfl rfl⟩

/-- C7: In forward mode the payload's embedded times are only modified
when `offsetHeader` is enabled for an offset topic: a directly emitted
record with positive embedded time keeps its payload bit-identical even
when the offset moves its emitted timestamp, and a flushed deferred entry
keeps its stored payload — only its emitted record timestamp becomes
`minValidTime` (plus offset). -/
theorem claim_C7_payload_frame :
    (∀ (s : EngineState) (topic : String) (p : Payload) (t T : Int),
      s.invert = false → t_from_header p = some T → 0 < T →
      ¬(s.offsetHeader = true ∧ topic ∈ s.offsetTopics) →
      (filter_msg s topic p t).emissions.head? =
        some ⟨topic, p, if topic ∈ s.offsetTopics then T + s.offset else T⟩) ∧
    (∀ (s : EngineState) (mvt : Int), s.minValidTime = some mvt →
      List.Forall₂ (fun (e : DeferredEntry) (r : Record) =>
          ¬(s.offsetHeader = true ∧ e.topic ∈ s.offsetTopics) →
          r = ⟨e.topic, e.payload,
            if e.topic ∈ s.offsetTopics then mvt + s.offset else mvt⟩)
        s.delayed (process_delayed_messages s).1) := by
  constructor
  · intro s topic p t T hinv hT hpos hno
    rw [filter_msg_forward_pos s topic p t T hinv hT hpos,
      filter_tail_head _ topic p T []]
    congr 1
    have hp : (if ({ s with minValidTime := some (min (s.minValidTime.getD T) T) } :
        EngineState).offsetHeader = true ∧
          topic ∈ ({ s with minValidTime := some (min (s.minValidTime.getD T) T) } :
        EngineState).offsetTopics then
          add_header_offset p s.offset else p) = p := if_neg hno
    rw [hp]
  · intro s mvt hm
    rw [(process_delayed_mvt_some s mvt hm).1]
    rw [List.forall₂_map_right_iff, List.forall₂_same]
    intro e _ hno
    unfold flushedRecord
    rw [if_neg hno]

/-- Witness for C7: with `offsetHeader` disabled, offset topic `/scan`
and offset 50, a record with embedded time 200 is emitted at 250 with
its payload untouched, and a flushed single-entry buffer keeps its
stored payload while being emitted at `minValidTime` 200. -/
theorem claim_C7_payload_frame_witness :
    ((filter_msg ⟨false, ["/scan"], 50, false, none, [], []⟩
        "/scan" (.single 200) 7).emissions.head? =
      some ⟨"/scan", .single 200,
        if "/scan" ∈ ["/scan"] then (200 : Int) + 50 else 200⟩) ∧
    List.Forall₂ (fun (e : DeferredEntry) (r : Record) =>
        ¬((false = true) ∧ e.topic ∈ ["/scan"]) →
        r = ⟨e.topic, e.payload, if e.topic ∈ ["/scan"] then (200 : Int) + 50 else 200⟩)
      [⟨"/tf", .tfMessage [-5], -5⟩]
      (process_delayed_messages
        ⟨false, ["/scan"], 50, false, some 200, [⟨"/tf", .tfMessage [-5], -5⟩], []⟩).1 :=
  ⟨claim_C7_payload_frame.1 _ "/scan" (.single 200) 7 200 rfl rfl (by decide)
     (by decide),
   claim_C7_payload_frame.2
     ⟨false, ["/scan"], 50, false, some 200, [⟨"/tf", .tfMessage [-5], -5⟩], []⟩
     200 rfl⟩

/-- C8: In forward mode, a record whose payload carries no embedded time
(unstamped, or a multi-element payload with no elements) is emitted with
the recorder-assigned timestamp (plus the offset when the topic
qualifies) together with one fallback warning for that topic — and a
second such record on the same topic produces no further warning.  The
deferred buffer is assumed empty, as in the spec's Scenario D (a
simultaneous flush would only append its own, differently-worded
messages). -/
theorem claim_C8_missing_time_warn_once (s : EngineState) (topic : String)
    (p q : Payload) (t u : Int) (hinv : s.invert = false)
    (hp : t_from_header p = none) (hq : t_from_header q = none)
    (hdel : s.delayed = [])
    (hw : (topic ++ " has no header, using bag timestamp instead") ∉ s.warned) :
    (filter_msg s topic p t).warnings =
      [topic ++ " has no header, using bag timestamp instead"] ∧
    (filter_msg s topic p t).emissions =
      [⟨topic,
        if s.offsetHeader = true ∧ topic ∈ s.offsetTopics then
          add_header_offset p s.offset else p,
        if topic ∈ s.offsetTopics then t + s.offset else t⟩] ∧
    (filter_msg (filter_msg s topic p t).state topic q u).warnings = [] := by
  rw [filter_msg_forward_none s topic p t hinv hp]
  set M := topic ++ " has no header, using bag timestamp instead" with hM
  have hwo : warn_once s.warned M = ([M], M :: s.warned) := by
    simp [warn_once, hw]
  rw [hwo]
  dsimp only
  rw [filter_tail_empty { s with warned := M :: s.warned } topic p t [M] hdel]
  refine ⟨rfl, rfl, ?_⟩
  dsimp only
  rw [filter_msg_forward_none { s with warned := M :: s.warned } topic q u hinv hq]
  have hwo2 : warn_once (M :: s.warned) M = ([], M :: s.warned) := by
    simp [warn_once]
  rw [← hM, hwo2]
  dsimp only
  rw [filter_tail_empty { s with warned := M :: s.warned } topic q u [] hdel]

/-- Witness for C8: an unstamped record on `/u` (an offset topic with
offset 50) recorded at 999 is emitted at 1049 with one warning; a second
record with no embedded time (an empty `TFMessage`) on the same topic
warns no further. -/
theorem claim_C8_missing_time_warn_once_witness :
    (filter_msg ⟨false, ["/u"], 50, false, none, [], []⟩ "/u" .unstamped 999).warnings =
      ["/u" ++ " has no header, using bag timestamp instead"] ∧
    (filter_msg ⟨false, ["/u"], 50, false, none, [], []⟩ "/u" .unstamped 999).emissions =
      [⟨"/u",
        if (⟨false, ["/u"], 50, false, none, [], []⟩ : EngineState).offsetHeader = true ∧
            "/u" ∈ (⟨false, ["/u"], 50, false, none, [], []⟩ : EngineState).offsetTopics then
          add_header_offset .unstamped 50 else .unstamped,
        if "/u" ∈ (⟨false, ["/u"], 50, false, none, [], []⟩ : EngineState).offsetTopics then
          (999 : Int) + 50 else 999⟩] ∧
    (filter_msg (filter_msg ⟨false, ["/u"], 50, false, none, [], []⟩
        "/u" .unstamped 999).state "/u" (.tfMessage []) 1000).warnings = [] :=
  claim_C8_missing_time_warn_once _ "/u" .unstamped (.tfMessage []) 999 1000
    rfl rfl rfl rfl (by decide)

end Restamp
